import Mathlib

/-!
Verification of the ISM report-to-ledger reconciliation engine
(`ism_script.py`, manufacturing variant, and `ism_service_script.py`,
service variant).

The Python code is shallowly embedded: strings are Lean `String`s
(`structure String where data : List Char`), and the Python string
primitives used by the scripts (`str.strip`, `str.lower`, substring
containment via `in`, `re.sub(r'[^a-z0-9\s]', '', ·)`, `str.split`,
`str.replace`, `' '.join(s.split())`, `str.title`) are modelled as
executable functions on `List Char`.  The pandas DataFrame that holds the
ledger is modelled as a name column plus an ordered list of
(header, values) columns.  Network fetch, HTML parsing (BeautifulSoup)
and the xlsx container are external collaborators and appear only as the
already-flattened document text handed to the extractor functions.
-/

/-- Python `str.lower()` (ASCII case folding, which is what the scripts'
inputs use), applied characterwise. -/
def lowerL (cs : List Char) : List Char := cs.map Char.toLower

/-- Python `str.strip()` : drop whitespace from both ends. -/
def trimL (cs : List Char) : List Char :=
  ((cs.dropWhile Char.isWhitespace).reverse.dropWhile Char.isWhitespace).reverse

/-- `trimL` packaged on `String`. -/
def trimStr (s : String) : String := ⟨trimL s.data⟩

/-- Python substring test `a in b` on character lists. -/
def containsSub : List Char → List Char → Bool
  | a, [] => a.isEmpty
  | a, c :: cs => a.isPrefixOf (c :: cs) || containsSub a cs

/-- Characters kept by `re.sub(r'[^a-z0-9\s]', '', s)` when `s` is already
lower-cased: ASCII lowercase letters, digits, and whitespace. -/
def keepClean (c : Char) : Bool := c.isLower || c.isDigit || c.isWhitespace

/-- `re.sub(r'[^a-z0-9\s]', '', s)` for a lower-cased `s`. -/
def cleanL (cs : List Char) : List Char := cs.filter keepClean

/-- Tier 1 of `match_industry_name`: case-insensitive exact equality of the
trimmed candidate (pre-processed to `r`) with a pool entry. -/
def tier1Hit (r : List Char) (s : String) : Bool := r == lowerL s.data

/-- Tier 2: substring containment in either direction. -/
def tier2Hit (r : List Char) (s : String) : Bool :=
  containsSub r (lowerL s.data) || containsSub (lowerL s.data) r

/-- Tier 3: equality after stripping everything but alphanumerics and
whitespace from both sides. -/
def tier3Hit (r : List Char) (s : String) : Bool :=
  cleanL r == cleanL (lowerL s.data)

/-- `match_industry_name(report_name, standard_names)` from both scripts
(the two copies are identical): three comparison tiers, each scanning the
pool in order, first hit wins; `none` models Python's `None`. -/
def matchIndustryName (reportName : String) (standardNames : List String) : Option String :=
  let r := lowerL (trimL reportName.data)
  match standardNames.find? (fun s => tier1Hit r s) with
  | some s => some s
  | none =>
    match standardNames.find? (fun s => tier2Hit r s) with
    | some s => some s
    | none => standardNames.find? (fun s => tier3Hit r s)

/-- Python truthiness of `match_industry_name(...)` results as used in the
scripts' `if`/`and` conditions: `None` and the empty string are falsy. -/
def matchTruthy (reportName : String) (standardNames : List String) : Bool :=
  match matchIndustryName reportName standardNames with
  | none => false
  | some s => !(s == "")

/-- Manufacturing rank assignment for one ledger row (`ism_script.py`
lines 209-230): 1-based first-match position in the reversed growth list,
else in the reversed contraction list (only consulted when the growth
search failed), else Neutral.  Returns the (rank cell, status cell) pair. -/
def mfgAssign (growth contraction : List String) (industry : String) : String × String :=
  match (growth.reverse.findIdx? (fun g => matchTruthy g [industry])).map (· + 1) with
  | some i => (toString i ++ " ↑", "Growth")
  | none =>
    match (contraction.reverse.findIdx? (fun c => matchTruthy c [industry])).map (· + 1) with
    | some i => ("-" ++ toString i ++ " ↓", "Contraction")
    | none => ("0 →", "Neutral")

/-- 1-based position of the first entry of a list satisfying `p`
(the specification's notion of "match position within a list"). -/
def posInList (p : String → Bool) : List String → Option Nat
  | [] => none
  | x :: xs => if p x then some 1 else (posInList p xs).map (· + 1)

/-- `ism_service_script.py` lines 226-236: build the industry→position dict
(`growth_positions` / `contraction_positions`).  `idx` is the 1-based
enumeration counter; a raw name contributes only when
`match_industry_name` returns a truthy value whose key is not already in
the dict (so the first raw mention wins).  Python dicts preserve insertion
order, hence the association list. -/
def buildPositions (rows : List String) : Nat → List String → List (String × Nat) → List (String × Nat)
  | _, [], acc => acc
  | idx, x :: xs, acc =>
    match matchIndustryName x rows with
    | some m =>
      if !(m == "") && (acc.find? (fun p => p.1 == m)).isNone
      then buildPositions rows (idx + 1) xs (acc ++ [(m, idx)])
      else buildPositions rows (idx + 1) xs acc
    | none => buildPositions rows (idx + 1) xs acc

/-- Stable insertion into a list sorted by second component; together with
`sortBySnd` this models Python's stable `sorted(items, key=lambda x: x[1])`. -/
def insertBySnd (x : String × Nat) : List (String × Nat) → List (String × Nat)
  | [] => [x]
  | y :: ys => if x.2 ≤ y.2 then x :: y :: ys else y :: insertBySnd x ys

/-- Stable sort by second component (Python `sorted(·, key=lambda x: x[1])`). -/
def sortBySnd : List (String × Nat) → List (String × Nat)
  | [] => []
  | x :: xs => insertBySnd x (sortBySnd xs)

/-- `{industry: total - rank + 1 for rank, (industry, _) in enumerate(sorted_l, 1)}`
with `k` the 0-based position: entry `k` is mapped to `total - k`. -/
def rankAux (total : Nat) : Nat → List (String × Nat) → List (String × Nat)
  | _, [] => []
  | k, p :: ps => (p.1, total - k) :: rankAux total (k + 1) ps

/-- The inverted rank dict built from a sorted positions list
(`growth_ranks` / `contraction_ranks` in `ism_service_script.py`). -/
def rankMap (l : List (String × Nat)) : List (String × Nat) :=
  rankAux l.length 0 l

/-- Python dict lookup `d[industry]` guarded by `industry in d`, for the
insertion-ordered association lists used here. -/
def lookupR (l : List (String × Nat)) (ind : String) : Option Nat :=
  (l.find? (fun p => p.1 == ind)).map Prod.snd

/-- The full rank dict for one category list in the service variant. -/
def svcRanks (lst rows : List String) : List (String × Nat) :=
  rankMap (sortBySnd (buildPositions rows 1 lst []))

/-- Service-variant rank assignment for one ledger row
(`ism_service_script.py` lines 238-267). -/
def svcAssign (growth contraction rows : List String) (industry : String) : String × String :=
  match lookupR (svcRanks growth rows) industry with
  | some rk => (toString rk ++ " ↑", "Growth")
  | none =>
    match lookupR (svcRanks contraction rows) industry with
    | some rk => ("-" ++ toString rk ++ " ↓", "Contraction")
    | none => ("0 →", "Neutral")

/-- For the refinement statement of claim C3, the specification's reading:
map every raw name (1-based mention index `i`) to its resolved canonical
row, in mention order, keeping only truthy resolutions. -/
def resolvedList (rows : List String) : Nat → List String → List (String × Nat)
  | _, [] => []
  | i, x :: xs =>
    match matchIndustryName x rows with
    | some m =>
      if m == "" then resolvedList rows (i + 1) xs
      else (m, i) :: resolvedList rows (i + 1) xs
    | none => resolvedList rows (i + 1) xs

/-- Keep only the first entry for each key ("first raw mention wins"). -/
def dedupF (seen : List String) : List (String × Nat) → List (String × Nat)
  | [] => []
  | p :: ps => if p.1 ∈ seen then dedupF seen ps else p :: dedupF (p.1 :: seen) ps

/-- The specification's "resolve every raw name to at most one canonical
row, first raw mention wins, preserving mention order". -/
def mentionPositions (rows lst : List String) : List (String × Nat) :=
  dedupF [] (resolvedList rows 1 lst)

/-- 0-based mention index of `ind` among the keys of a positions list. -/
def idxOfKey (l : List (String × Nat)) (ind : String) : Option Nat :=
  l.findIdx? (fun p => p.1 == ind)

/-- Claim C3's reading of the grouped-and-reversed policy: the `k`-th
mentioned matched row (0-based) of a list of size `G` receives magnitude
`G - k`, so the first-mentioned row gets `G` and the last gets `1`;
growth is consulted before contraction; unmatched rows are Neutral. -/
def specSvcAssign (growth contraction rows : List String) (industry : String) : String × String :=
  let gp := mentionPositions rows growth
  let cp := mentionPositions rows contraction
  match idxOfKey gp industry with
  | some k => (toString (gp.length - k) ++ " ↑", "Growth")
  | none =>
    match idxOfKey cp industry with
    | some k => ("-" ++ toString (cp.length - k) ++ " ↓", "Contraction")
    | none => ("0 →", "Neutral")

/-- The persisted wide table: the category-name column (`ISM Manufacturing`
resp. `ISM Service`) plus the ordered month columns, each a header together
with its per-row values. -/
structure Ledger where
  names : List String
  cols : List (String × List String)
deriving DecidableEq, Repr

/-- `ism_script.py` lines 194-197: raw names kept as new industries.  The
pool is the name column with each entry stripped
(`df['ISM Manufacturing'].str.strip().tolist()`); Python's
`not match_industry_name(...)` keeps a name when the match result is falsy
(`None` or the empty string). -/
def newIndustries (L : Ledger) (growth contraction : List String) : List String :=
  (growth ++ contraction).filter
    (fun x => !(matchTruthy x (L.names.map trimStr)))

/-- The in-memory core of `update_excel_data` (`ism_script.py` lines
193-234) once the report month and the two category lists are in hand:
append unmatched raw names as rows (empty string in every existing
column, per `{col: '' for col in df.columns ...}`), drop any existing
column pair for the report month, recompute rank/status for every row and
append the rebuilt pair at the end. -/
def updateMfg (L : Ledger) (month : String) (growth contraction : List String) : Ledger :=
  let ni := newIndustries L growth contraction
  let allNames := L.names ++ ni
  { names := allNames
    cols :=
      ((L.cols.map (fun pc => (pc.1, pc.2 ++ ni.map (fun _ => "")))).filter
          (fun pc => !(pc.1 == month ++ " Rank" || pc.1 == month ++ " Status")))
        ++ [(month ++ " Rank", allNames.map (fun ind => (mfgAssign growth contraction ind).1)),
            (month ++ " Status", allNames.map (fun ind => (mfgAssign growth contraction ind).2))] }

/-- The abort logic of `update_excel_data` (`ism_script.py` lines 182-191):
no report month, or both extracted lists empty (Python falsiness of
lists), returns the loaded ledger unchanged; otherwise the update runs. -/
def runUpdateMfg (L : Ledger) (reportMonth : Option String)
    (growth contraction : List String) : Ledger :=
  match reportMonth with
  | none => L
  | some m =>
    if growth = [] ∧ contraction = [] then L
    else updateMfg L m growth contraction

/-- The twelve alternatives of the month group in the period regex of
`extract_report_month` (both scripts), in alternation order. -/
def monthNames : List String :=
  ["January", "February", "March", "April", "May", "June", "July",
   "August", "September", "October", "November", "December"]

/-- One attempt of `(Month)\s+(\d{4})` at the current position with a fixed
month alternative `m`: `m` must be a literal prefix (the regex has no
IGNORECASE flag), followed by at least one whitespace character and then
exactly four digits (further digits may trail unmatched).  Returns the
matched month and the four year digits. -/
def monthYearHere (m : List Char) (cs : List Char) : Option (List Char × List Char) :=
  if m.isPrefixOf cs then
    let rest := cs.drop m.length
    let rest2 := rest.dropWhile Char.isWhitespace
    if !(rest.takeWhile Char.isWhitespace).isEmpty
        && (rest2.take 4).length == 4 && (rest2.take 4).all Char.isDigit then
      some (m, rest2.take 4)
    else none
  else none

/-- The regex alternation at one start position: alternatives tried in
order (they are mutually non-prefix, so at most one can succeed). -/
def tryMonthYear (cs : List Char) : Option (List Char × List Char) :=
  monthNames.findSome? (fun m => monthYearHere m.data cs)

/-- `re.search` scan: leftmost start position at which the pattern matches. -/
def searchMonthYear : List Char → Option (List Char × List Char)
  | [] => none
  | c :: cs =>
    match tryMonthYear (c :: cs) with
    | some r => some r
    | none => searchMonthYear cs

/-- Python `str.title()`: a cased (alphabetic, for the ASCII data at hand)
character is upper-cased when the previous character is not cased and
lower-cased otherwise; other characters pass through.  The flag records
whether the previous character was cased. -/
def titleChars : Bool → List Char → List Char
  | _, [] => []
  | prevCased, c :: cs =>
    if c.isAlpha then (if prevCased then c.toLower else c.toUpper) :: titleChars true cs
    else c :: titleChars false cs

/-- `str.title()` on a `String`. -/
def titleCaseStr (s : String) : String := ⟨titleChars false s.data⟩

/-- `extract_report_month` (identical in both scripts): search the
flattened document text for the first month-name + 4-digit-year
occurrence and emit `f"{month[:3]}-{year[-2:]}".title()`. -/
def extractReportMonth (text : String) : Option String :=
  (searchMonthYear text.data).map
    (fun p => titleCaseStr ⟨p.1.take 3 ++ '-' :: p.2.drop 2⟩)

/-- Split on a character class (`re.split(r'[;]', s)` / `re.split(r'[;,]', s)`):
`n` separators yield `n + 1` fragments, empties included. -/
def splitChars (p : Char → Bool) : List Char → List (List Char)
  | [] => [[]]
  | c :: cs =>
    match splitChars p cs with
    | [] => [[c]]
    | h :: t => if p c then [] :: h :: t else (c :: h) :: t

/-- `' '.join(text.split())` : collapse whitespace runs to single spaces
and strip the ends (`extract_industry_data`, line 40 resp. 50). -/
def collapseWs (s : String) : String :=
  ⟨List.intercalate [' '] ((splitChars Char.isWhitespace s.data).filter (fun w => !w.isEmpty))⟩

/-- Case-insensitive literal match at the current position (`pat` is given
lower-cased; the anchors are searched with `re.IGNORECASE`). -/
def matchCI (pat cs : List Char) : Bool := lowerL (cs.take pat.length) == pat

/-- The lazy `.*?:` between the anchor phrase and the list: everything up
to and through the first colon; no colon at all means the whole pattern
fails at this start position. -/
def dropThroughColon : List Char → Option (List Char)
  | [] => none
  | c :: cs => if c == ':' then some cs else dropThroughColon cs

/-- The lazily captured span `(.*?)(?:\.|term₁|...|$)`: characters up to the
first literal dot, the first case-insensitive occurrence of a terminator
phrase, or the end of the text. -/
def captureUntil (terms : List (List Char)) : List Char → List Char
  | [] => []
  | c :: cs =>
    if c == '.' then []
    else if terms.any (fun t => matchCI t (c :: cs)) then []
    else c :: captureUntil terms cs

/-- One start position of the anchored capture pattern
`anchor.*?:\s*(.*?)(?:\.|terms|$)`: one of the `anchors` (regex
alternation, mutually exclusive at a fixed position) must match
case-insensitively, then the first colon is consumed, greedy `\s*`, and
the span is captured. -/
def tryCapture (anchors terms : List (List Char)) (cs : List Char) : Option (List Char) :=
  match anchors.findSome? (fun a => if matchCI a cs then some a else none) with
  | some a =>
    match dropThroughColon (cs.drop a.length) with
    | some rest => some (captureUntil terms (rest.dropWhile Char.isWhitespace))
    | none => none
  | none => none

/-- `re.search` scan for the anchored capture pattern. -/
def searchCapture (anchors terms : List (List Char)) : List Char → Option (List Char)
  | [] => none
  | c :: cs =>
    match tryCapture anchors terms (c :: cs) with
    | some r => some r
    | none => searchCapture anchors terms cs

/-- `extract_industry_data` of `ism_script.py` (manufacturing): collapse
whitespace, capture the two spans, split on semicolons and strip each
fragment.  Empty fragments are kept, faithfully to
`[i.strip() for i in re.split(r'[;]', ...)]`. -/
def extractIndustryDataMfg (text : String) : List String × List String :=
  let t := (collapseWs text).data
  let growth :=
    match searchCapture ["industries reporting growth".data]
        ["industries reporting contraction".data] t with
    | some span => (splitChars (fun c => c == ';') span).map (fun f => (⟨trimL f⟩ : String))
    | none => []
  let contraction :=
    match searchCapture ["industries reporting contraction".data] [] t with
    | some span => (splitChars (fun c => c == ';') span).map (fun f => (⟨trimL f⟩ : String))
    | none => []
  (growth, contraction)

/-- Python `s.replace('and ', '')`: remove every (non-overlapping,
left-to-right) occurrence of the literal `"and "`; at each position the
four-character pattern is tried first, otherwise the character is kept. -/
def replaceAnd : List Char → List Char
  | [] => []
  | 'a' :: 'n' :: 'd' :: ' ' :: cs => replaceAnd cs
  | c :: cs => c :: replaceAnd cs

/-- The contraction anchor alternation of the service variant,
`(?:industries|sectors) reporting (?:a )?contraction`, flattened into its
four (mutually exclusive at a fixed position) literal alternatives in the
order the regex engine tries them. -/
def svcContraAnchors : List (List Char) :=
  ["industries reporting a contraction".data,
   "industries reporting contraction".data,
   "sectors reporting a contraction".data,
   "sectors reporting contraction".data]

/-- `extract_industry_data` of `ism_service_script.py` (service): same
capture machinery, splitting on semicolons and commas, stripping each
fragment, removing the literal `"and "`, and dropping empty fragments. -/
def extractIndustryDataSvc (text : String) : List String × List String :=
  let t := (collapseWs text).data
  let growth :=
    match searchCapture ["industries reporting growth".data]
        ["industries reporting contraction".data] t with
    | some span =>
      (splitChars (fun c => c == ';' || c == ',') span).map
        (fun f => (⟨replaceAnd (trimL f)⟩ : String))
    | none => []
  let contraction :=
    match searchCapture svcContraAnchors ["industries reporting growth".data] t with
    | some span =>
      (splitChars (fun c => c == ';' || c == ',') span).map
        (fun f => (⟨replaceAnd (trimL f)⟩ : String))
    | none => []
  (growth.filter (fun g => !(g == "")), contraction.filter (fun c => !(c == "")))

/-- Leftmost match of `re.search(r'-?\d+', s)`: the first position carrying
a digit, or a minus sign immediately followed by a digit, then the maximal
digit run (converted through Python `float`, integral here). -/
def findIntToken : List Char → Option Int
  | [] => none
  | c :: cs =>
    if c.isDigit then
      some (Int.ofNat ((c :: cs.takeWhile Char.isDigit).foldl
        (fun a d => a * 10 + (d.toNat - 48)) 0))
    else if c == '-' && (match cs with | d :: _ => d.isDigit | [] => false) then
      some (-(Int.ofNat ((cs.takeWhile Char.isDigit).foldl
        (fun a d => a * 10 + (d.toNat - 48)) 0)))
    else findIntToken cs

/-- `apply_historical_formatting`, first pass over one month's rank column
(lines 101-108): parse every cell, unparsable cells contribute 0. -/
def parsedRanks (rankCol : List String) : List Int :=
  rankCol.map (fun s => (findIntToken s.data).getD 0)

/-- `max_rank = max(rank_values) if rank_values else 1` — the default
applies only to an empty list (which line 110's `continue` already
excludes), not to a non-positive maximum. -/
def maxRank (vs : List Int) : Int :=
  match vs with
  | [] => 1
  | v :: t => t.foldl max v

/-- `min_rank = min(rank_values) if rank_values else -1`. -/
def minRank (vs : List Int) : Int :=
  match vs with
  | [] => -1
  | v :: t => t.foldl min v

/-- Font color applied to a rank cell by sign (lines 131-137). -/
def fontColor (v : Int) : String :=
  if v > 0 then "006100" else if v < 0 then "9C0006" else "FFC000"

/-- The background fill computed for one status cell; intensities are the
exact rationals `|rank / max_rank|` resp. `|rank / min_rank|` (the Python
floats are presentation-only downstream of this value). -/
inductive Shade where
  | growthFill (intensity : ℚ)
  | contractionFill (intensity : ℚ)
  | neutralFill
  | skipped
deriving DecidableEq, Repr

/-- Second pass of `apply_historical_formatting` for one (rank cell,
status cell) pair (lines 121-161): unparsable rank cells are skipped
(`continue`); `"Growth" in status_text` / `"Contraction" in status_text`
are substring tests; a zero divisor raises `ZeroDivisionError`, modelled
as `Except.error`. -/
def formatCell (mx mn : Int) (rankCell statusCell : String) : Except String Shade :=
  match findIntToken rankCell.data with
  | none => .ok .skipped
  | some v =>
    if containsSub "Growth".data statusCell.data then
      if mx = 0 then .error "ZeroDivisionError"
      else .ok (.growthFill |(v : ℚ) / (mx : ℚ)|)
    else if containsSub "Contraction".data statusCell.data then
      if mn = 0 then .error "ZeroDivisionError"
      else .ok (.contractionFill |(v : ℚ) / (mn : ℚ)|)
    else .ok .neutralFill

/-- `apply_historical_formatting` restricted to one month-column-pair
(the per-month body of the loop at lines 94-161): compute the parsed rank
values, take max/min, then shade each zipped (rank, status) cell pair; a
raised `ZeroDivisionError` aborts the pass. -/
def formatMonth (rankCol statusCol : List String) : Except String (List Shade) :=
  let vs := parsedRanks rankCol
  if vs.isEmpty then .ok []
  else
    (rankCol.zip statusCol).mapM (fun p => formatCell (maxRank vs) (minRank vs) p.1 p.2)

/-! ## Basic lemmas about the string primitives -/

theorem containsSub_nil_left (b : List Char) : containsSub [] b = true := by
  cases b with
  | nil => rfl
  | cons c cs => simp [containsSub, List.isPrefixOf]

theorem lowerL_eq_nil {cs : List Char} : lowerL cs = [] ↔ cs = [] := by
  simp [lowerL]

theorem trimStr_eq_empty {s : String} (h : trimStr s = "") : trimL s.data = [] := by
  have : (trimStr s).data = ("" : String).data := by rw [h]
  simpa [trimStr] using this

theorem dropWhile_idem (p : α → Bool) (l : List α) :
    (l.dropWhile p).dropWhile p = l.dropWhile p := by
  induction l with
  | nil => rfl
  | cons c cs ih =>
    by_cases h : p c
    · simp [List.dropWhile_cons, h, ih]
    · simp [List.dropWhile_cons, h]

theorem dropWhile_head_false (p : α → Bool) (l : List α) {x : α} {xs : List α}
    (h : l.dropWhile p = x :: xs) : p x = false := by
  induction l with
  | nil => simp at h
  | cons c cs ih =>
    by_cases hc : p c
    · simp [List.dropWhile_cons, hc] at h
      exact ih h
    · simp [List.dropWhile_cons, hc] at h
      rw [← h.1]
      simp [hc]

theorem trimL_idem (cs : List Char) : trimL (trimL cs) = trimL cs := by
  unfold trimL
  set A := cs.dropWhile Char.isWhitespace with hA
  set B := A.reverse.dropWhile Char.isWhitespace with hB
  have h1 : B.dropWhile Char.isWhitespace = B := by
    rw [hB, dropWhile_idem]
  have h2 : B.reverse.dropWhile Char.isWhitespace = B.reverse := by
    cases hrev : B.reverse with
    | nil => rfl
    | cons r rs =>
      -- the head of `reverse B` is the last of `B`; `B` is a suffix of
      -- `reverse A`, so that last is the last of `reverse A`, i.e. the
      -- head of `A`, and `A` is a `dropWhile ws`, so it is non-whitespace
      have hlast : B.getLast? = some r := by
        rw [← List.head?_reverse, hrev]
        rfl
      have hBne : B ≠ [] := by
        intro h
        rw [h] at hrev
        simp at hrev
      have hsuff : B <:+ A.reverse := by
        rw [hB]; exact List.dropWhile_suffix _
      obtain ⟨t, ht⟩ := hsuff
      have hlastA : A.reverse.getLast? = some r := by
        rw [← ht, List.getLast?_append, hlast]
        rfl
      have hAhead : A.head? = some r := by
        rw [← List.head?_reverse] at hlastA
        simpa using hlastA
      have hrw : Char.isWhitespace r = false := by
        cases hAc : A with
        | nil => rw [hAc] at hAhead; simp at hAhead
        | cons a as =>
          have : a = r := by rw [hAc] at hAhead; simpa using hAhead
          subst this
          exact dropWhile_head_false _ _ (hA ▸ hAc)
      rw [List.dropWhile_cons, hrw]
      simp
  rw [h2, List.reverse_reverse, h1]

/-! ## Claim C8 : abort conditions -/

/-- Claim C8: if no report period is found, or both the growth and the
contraction list come back empty, the run aborts and the ledger is
returned unchanged; partial extraction (exactly one list empty) is not an
error and the update proceeds. -/
theorem c8_abort_semantics (L : Ledger) (m : String) (growth contraction : List String) :
    runUpdateMfg L none growth contraction = L ∧
    runUpdateMfg L (some m) [] [] = L ∧
    (growth ≠ [] ∨ contraction ≠ [] →
      runUpdateMfg L (some m) growth contraction = updateMfg L m growth contraction) := by
  refine ⟨rfl, by simp [runUpdateMfg], fun h => ?_⟩
  show (if growth = [] ∧ contraction = [] then L else updateMfg L m growth contraction) = _
  rw [if_neg]
  tauto

/-- Witness for C8 at a concrete ledger and document extraction: a
populated growth list with an empty contraction list proceeds with the
update. -/
theorem c8_abort_semantics_witness :
    runUpdateMfg ⟨["Machinery"], []⟩ (some "Mar-25") ["Machinery"] [] =
      updateMfg ⟨["Machinery"], []⟩ "Mar-25" ["Machinery"] [] :=
  (c8_abort_semantics ⟨["Machinery"], []⟩ "Mar-25" ["Machinery"] []).2.2
    (Or.inl (by decide))

/-! ## Claim C2 : manufacturing reverse-position policy -/

theorem findIdx?_succ_eq_posInList (p : String → Bool) (l : List String) :
    (l.findIdx? p).map (· + 1) = posInList p l := by
  induction l with
  | nil => rfl
  | cons x xs ih =>
    by_cases h : p x
    · simp [List.findIdx?_cons, h, posInList]
    · rw [posInList, if_neg (by simp [h]), ← ih, List.findIdx?_cons, if_neg (by simp [h]),
        List.findIdx?_succ]

/-- Claim C2: under the reverse-position policy, a row's cell pair is
`(+p " ↑", Growth)` for `p` the 1-based first-match position of the row in
the reversed growth list; only when no growth entry matches is the
reversed contraction list consulted, giving `(-p " ↓", Contraction)`;
otherwise `("0 →", Neutral)`.  A (truthy) growth match therefore always
takes precedence over a contraction match. -/
theorem c2_reverse_position_policy (growth contraction : List String) (industry : String) :
    mfgAssign growth contraction industry =
      (match posInList (fun g => matchTruthy g [industry]) growth.reverse with
       | some p => (toString p ++ " ↑", "Growth")
       | none =>
         match posInList (fun c => matchTruthy c [industry]) contraction.reverse with
         | some p => ("-" ++ toString p ++ " ↓", "Contraction")
         | none => ("0 →", "Neutral")) := by
  unfold mfgAssign
  rw [findIdx?_succ_eq_posInList, findIdx?_succ_eq_posInList]

/-- Unfolding lemma for `matchIndustryName` with the let binding inlined. -/
theorem matchIndustryName_eq (cand : String) (pool : List String) :
    matchIndustryName cand pool =
      (match pool.find? (fun s => tier1Hit (lowerL (trimL cand.data)) s) with
       | some s => some s
       | none =>
         match pool.find? (fun s => tier2Hit (lowerL (trimL cand.data)) s) with
         | some s => some s
         | none => pool.find? (fun s => tier3Hit (lowerL (trimL cand.data)) s)) := rfl

/-! ## Claim C10 : empty candidate against a pool -/

/-- Counterexample to claim C10 as stated: with pool `["A", ""]` the empty
candidate is returned as the *second* pool entry `""` by the exact-equality
tier, not as the first pool entry `"A"`. -/
theorem c10_counterexample :
    matchIndustryName "" ["A", ""] = some "" ∧ ("" : String) ≠ "A" := by
  constructor
  · rfl
  · decide

/-- Claim C10 (amended): for every non-empty pool all of whose entries are
non-empty, an empty or whitespace-only candidate returns the first pool
entry: the exact tier cannot hit a non-empty entry, and the empty trimmed
candidate is a substring of every entry, so the substring tier returns the
entry scanned first. -/
theorem c10_empty_candidate (cand p : String) (ps : List String)
    (hne : ∀ s ∈ p :: ps, s ≠ "") (hc : trimStr cand = "") :
    matchIndustryName cand (p :: ps) = some p := by
  have hr : lowerL (trimL cand.data) = [] := by
    rw [trimStr_eq_empty hc]
    rfl
  rw [matchIndustryName_eq, hr]
  have h1 : (p :: ps).find? (fun s => tier1Hit [] s) = none := by
    rw [List.find?_eq_none]
    intro s hs
    simp only [tier1Hit, Bool.not_eq_true, beq_eq_false_iff_ne, ne_eq]
    intro hcontra
    have hd : s.data = [] := lowerL_eq_nil.mp hcontra.symm
    refine hne s hs ?_
    cases s with
    | mk d =>
      simp only [String.data] at hd
      rw [hd]
  rw [h1]
  have h2 : tier2Hit [] p = true := by
    simp [tier2Hit, containsSub_nil_left]
  rw [List.find?_cons, h2]

/-- Witness for the amended C10 at a concrete pool. -/
theorem c10_empty_candidate_witness :
    matchIndustryName "  " ["Machinery", "Textile Mills"] = some "Machinery" :=
  c10_empty_candidate "  " "Machinery" ["Textile Mills"]
    (by decide) (by decide)

/-! ## Claim C6 : the three matcher tiers -/

/-- Claim C6: the matcher resolves in three tiers, first tier (then first
pool entry within a tier) wins; the result, when some, is a pool entry;
the "no match" sentinel appears exactly when every tier fails on every
pool entry; and `match(x, [x, ...]) = x` for any non-empty trimmed `x`.
The function is pure, so it has no side effects by construction. -/
theorem c6_matcher_tiers (cand : String) (pool : List String) :
    (matchIndustryName cand pool =
      ((pool.find? (fun s => tier1Hit (lowerL (trimL cand.data)) s)).or
        ((pool.find? (fun s => tier2Hit (lowerL (trimL cand.data)) s)).or
          (pool.find? (fun s => tier3Hit (lowerL (trimL cand.data)) s)))))
    ∧ (∀ s, matchIndustryName cand pool = some s → s ∈ pool)
    ∧ (matchIndustryName cand pool = none ↔
        ∀ s ∈ pool, tier1Hit (lowerL (trimL cand.data)) s = false ∧
          tier2Hit (lowerL (trimL cand.data)) s = false ∧
          tier3Hit (lowerL (trimL cand.data)) s = false)
    ∧ (trimStr cand = cand → cand ≠ "" →
        matchIndustryName cand (cand :: pool) = some cand) := by
  refine ⟨?_, ?_, ?_, ?_⟩
  · rw [matchIndustryName_eq]
    rcases h1 : pool.find? (fun s => tier1Hit (lowerL (trimL cand.data)) s) with _ | s1
    · rcases h2 : pool.find? (fun s => tier2Hit (lowerL (trimL cand.data)) s) with _ | s2
      · simp [Option.or]
      · simp [Option.or]
    · simp [Option.or]
  · intro s hs
    rw [matchIndustryName_eq] at hs
    rcases h1 : pool.find? (fun s => tier1Hit (lowerL (trimL cand.data)) s) with _ | s1
    · rw [h1] at hs
      rcases h2 : pool.find? (fun s => tier2Hit (lowerL (trimL cand.data)) s) with _ | s2
      · rw [h2] at hs
        exact List.mem_of_find?_eq_some hs
      · rw [h2] at hs
        cases hs
        exact List.mem_of_find?_eq_some h2
    · rw [h1] at hs
      cases hs
      exact List.mem_of_find?_eq_some h1
  · rw [matchIndustryName_eq]
    constructor
    · intro h s hs
      rcases h1 : pool.find? (fun s => tier1Hit (lowerL (trimL cand.data)) s) with _ | s1
      · rw [h1] at h
        rcases h2 : pool.find? (fun s => tier2Hit (lowerL (trimL cand.data)) s) with _ | s2
        · rw [h2] at h
          rw [List.find?_eq_none] at h1 h2 h
          exact ⟨by simpa using h1 s hs, by simpa using h2 s hs, by simpa using h s hs⟩
        · rw [h2] at h
          cases h
      · rw [h1] at h
        cases h
    · intro h
      have h1 : pool.find? (fun s => tier1Hit (lowerL (trimL cand.data)) s) = none := by
        rw [List.find?_eq_none]
        intro s hs
        simp [(h s hs).1]
      have h2 : pool.find? (fun s => tier2Hit (lowerL (trimL cand.data)) s) = none := by
        rw [List.find?_eq_none]
        intro s hs
        simp [(h s hs).2.1]
      have h3 : pool.find? (fun s => tier3Hit (lowerL (trimL cand.data)) s) = none := by
        rw [List.find?_eq_none]
        intro s hs
        simp [(h s hs).2.2]
      rw [h1, h2, h3]
  · intro htrim _
    have hdata : trimL cand.data = cand.data := by
      have : (trimStr cand).data = cand.data := by rw [htrim]
      simpa [trimStr] using this
    rw [matchIndustryName_eq, hdata, List.find?_cons]
    have : tier1Hit (lowerL cand.data) cand = true := by
      simp [tier1Hit]
    rw [this]

/-- Witness for C6: reflexivity instantiated at a concrete industry name,
discharging both hypotheses. -/
theorem c6_matcher_tiers_witness :
    matchIndustryName "Machinery" ["Machinery", "Paper Products"] = some "Machinery" :=
  (c6_matcher_tiers "Machinery" ["Paper Products"]).2.2.2 (by decide) (by decide)

/-! ## Claim C4 : values given to newly appended rows -/

/-- Pre-existing columns survive an update: a column whose header is not
the report month's pair keeps its values, extended by one cell per newly
appended row — and that cell is the empty string, not the Neutral/0
encoding (`{col: '' for col in df.columns if col != 'ISM Manufacturing'}`). -/
theorem mem_cols_updateMfg {L : Ledger} {m : String} {growth contraction : List String}
    {hd : String} {vs : List String} (hmem : (hd, vs) ∈ L.cols)
    (hR : hd ≠ m ++ " Rank") (hS : hd ≠ m ++ " Status") :
    (hd, vs ++ (newIndustries L growth contraction).map (fun _ => "")) ∈
      (updateMfg L m growth contraction).cols := by
  unfold updateMfg
  simp only [List.mem_append]
  left
  rw [List.mem_filter]
  constructor
  · exact List.mem_map.mpr ⟨(hd, vs), hmem, rfl⟩
  · simp [hR, hS]

/-- Counterexample to claim C4 as stated: merging `Feb-25` with the newly
discovered category `Zed` into a one-row ledger that already has a
`Jan-25` pair gives the new row the empty string in the `Jan-25` columns,
not the Neutral/"0 →" value. -/
theorem c4_counterexample :
    updateMfg ⟨["A"], [("Jan-25 Rank", ["1 ↑"]), ("Jan-25 Status", ["Growth"])]⟩
        "Feb-25" ["Zed"] [] =
      ⟨["A", "Zed"],
       [("Jan-25 Rank", ["1 ↑", ""]),
        ("Jan-25 Status", ["Growth", ""]),
        ("Feb-25 Rank", ["0 →", "1 ↑"]),
        ("Feb-25 Status", ["Neutral", "Growth"])]⟩ ∧
    ("" : String) ≠ "0 →" ∧ ("" : String) ≠ "Neutral" := by
  refine ⟨by decide, by decide, by decide⟩

/-- Claim C4 (amended): a newly discovered row is appended with the empty
string — not the Neutral/0 encoding — as its value in every previously
existing month column, so every row still has a cell for every month
column (`replicate` makes the all-empty padding explicit). -/
theorem c4_new_rows_empty_padding (L : Ledger) (m : String)
    (growth contraction : List String) (hd : String) (vs : List String)
    (hmem : (hd, vs) ∈ L.cols) (hR : hd ≠ m ++ " Rank") (hS : hd ≠ m ++ " Status") :
    (hd, vs ++ List.replicate (newIndustries L growth contraction).length "") ∈
      (updateMfg L m growth contraction).cols := by
  have := @mem_cols_updateMfg L m growth contraction hd vs hmem hR hS
  rwa [show ((newIndustries L growth contraction).map (fun _ => ("" : String)))
      = List.replicate (newIndustries L growth contraction).length "" from
    List.map_const _ ""] at this

/-- Witness for the amended C4 at the counterexample's concrete ledger. -/
theorem c4_new_rows_empty_padding_witness :
    (("Jan-25 Rank" : String), (["1 ↑", ""] : List String)) ∈
      (updateMfg ⟨["A"], [("Jan-25 Rank", ["1 ↑"]), ("Jan-25 Status", ["Growth"])]⟩
        "Feb-25" ["Zed"] []).cols := by
  have := c4_new_rows_empty_padding
    ⟨["A"], [("Jan-25 Rank", ["1 ↑"]), ("Jan-25 Status", ["Growth"])]⟩
    "Feb-25" ["Zed"] [] "Jan-25 Rank" ["1 ↑"]
    (by decide) (by decide) (by decide)
  simpa using this

/-! ## Claim C7 : formatter max/min defaults and division safety -/

/-- Counterexample to claim C7 as stated: for a column whose single rank
cell is `"0 →"` the computed maximum is `0`, not the claimed default `1`
(the `if rank_values else 1` default only covers the empty list, which the
preceding `continue` already excludes); symmetrically the minimum is `0`,
not `-1`; and a `Growth` status over such a column does divide by zero. -/
theorem c7_counterexample :
    maxRank (parsedRanks ["0 →"]) = 0 ∧ (0 : Int) ≠ 1 ∧
    minRank (parsedRanks ["0 →"]) = 0 ∧ (0 : Int) ≠ -1 ∧
    formatMonth ["0 →"] ["Growth"] = Except.error "ZeroDivisionError" := by
  refine ⟨rfl, by decide, rfl, by decide, rfl⟩

theorem parsedRanks_all_zero {rankCol : List String}
    (h : ∀ r ∈ rankCol, r = "0 →") : parsedRanks rankCol = List.replicate rankCol.length 0 := by
  induction rankCol with
  | nil => rfl
  | cons r rs ih =>
    have hr : r = "0 →" := h r (by simp)
    have : parsedRanks rs = List.replicate rs.length 0 := ih (fun x hx => h x (by simp [hx]))
    simp only [parsedRanks, List.map_cons, List.replicate, List.length_cons] at this ⊢
    rw [hr, this]
    rfl

theorem maxRank_replicate_zero (n : Nat) (hn : n ≠ 0) :
    maxRank (List.replicate n 0) = 0 := by
  cases n with
  | zero => exact absurd rfl hn
  | succ k =>
    rw [List.replicate_succ]
    show (List.replicate k (0 : Int)).foldl max 0 = 0
    induction k with
    | zero => rfl
    | succ j ih =>
      rw [List.replicate_succ]
      simpa using ih

theorem minRank_replicate_zero (n : Nat) (hn : n ≠ 0) :
    minRank (List.replicate n 0) = 0 := by
  cases n with
  | zero => exact absurd rfl hn
  | succ k =>
    rw [List.replicate_succ]
    show (List.replicate k (0 : Int)).foldl min 0 = 0
    induction k with
    | zero => rfl
    | succ j ih =>
      rw [List.replicate_succ]
      simpa using ih

theorem mapM_ok_of_forall {α β : Type} (f : α → Except String β) (g : α → β)
    (l : List α) (h : ∀ a ∈ l, f a = .ok (g a)) : l.mapM f = .ok (l.map g) := by
  induction l with
  | nil => rfl
  | cons a as ih =>
    rw [List.mapM_cons, h a (by simp), ih (fun x hx => h x (by simp [hx]))]
    rfl

/-- Claim C7 (amended): `max_rank`/`min_rank` are the plain maximum/minimum
of the parsed ranks — the 1 / -1 defaults apply only to an empty value
list, which the preceding `continue` makes unreachable — so a column where
every rank is `"0 →"` has `max_rank = min_rank = 0`; nevertheless, as long
as every status cell of such a column is `Neutral` (the only pairing the
pipeline ever writes for rank 0), no division is evaluated and every cell
receives the fixed neutral fill. -/
theorem c7_formatter_zero_column (rankCol statusCol : List String)
    (hr : ∀ r ∈ rankCol, r = "0 →") (hs : ∀ s ∈ statusCol, s = "Neutral") :
    (rankCol ≠ [] → maxRank (parsedRanks rankCol) = 0 ∧ minRank (parsedRanks rankCol) = 0) ∧
    formatMonth rankCol statusCol =
      Except.ok ((rankCol.zip statusCol).map (fun _ => Shade.neutralFill)) := by
  constructor
  · intro hne
    rw [parsedRanks_all_zero hr]
    have hlen : rankCol.length ≠ 0 := by simpa using hne
    exact ⟨maxRank_replicate_zero _ hlen, minRank_replicate_zero _ hlen⟩
  · unfold formatMonth
    by_cases hcol : rankCol = []
    · subst hcol
      simp [parsedRanks]
    · have hvs : ¬(parsedRanks rankCol).isEmpty = true := by
        rw [parsedRanks_all_zero hr]
        cases hc : rankCol with
        | nil => exact absurd hc hcol
        | cons a as => simp [hc]
      rw [if_neg hvs]
      refine mapM_ok_of_forall _ _ _ ?_
      intro p hp
      have hp1 : p.1 = "0 →" := hr p.1 (List.of_mem_zip hp).1
      have hp2 : p.2 = "Neutral" := hs p.2 (List.of_mem_zip hp).2
      rw [formatCell, hp1, hp2]
      rfl

/-- Witness for the amended C7 at a concrete two-row all-zero column. -/
theorem c7_formatter_zero_column_witness :
    (["0 →", "0 →"] ≠ ([] : List String) →
      maxRank (parsedRanks ["0 →", "0 →"]) = 0 ∧
      minRank (parsedRanks ["0 →", "0 →"]) = 0) ∧
    formatMonth ["0 →", "0 →"] ["Neutral", "Neutral"] =
      Except.ok [Shade.neutralFill, Shade.neutralFill] := by
  have := c7_formatter_zero_column ["0 →", "0 →"] ["Neutral", "Neutral"]
    (by decide) (by decide)
  simpa using this

/-! ## Claim C9 : the report extractor -/

theorem not_ws_of_digit {c : Char} (h : c.isDigit = true) : c.isWhitespace = false := by
  simp only [Char.isDigit, Bool.and_eq_true, decide_eq_true_eq] at h
  simp only [Char.isWhitespace, Bool.or_eq_false_iff, decide_eq_false_iff_not]
  refine ⟨⟨⟨?_, ?_⟩, ?_⟩, ?_⟩ <;>
    · intro hc
      subst hc
      revert h
      decide

theorem monthYearHere_self (m : List Char) (d1 d2 d3 d4 : Char)
    (h1 : d1.isDigit = true) (h2 : d2.isDigit = true)
    (h3 : d3.isDigit = true) (h4 : d4.isDigit = true) (rest : List Char) :
    monthYearHere m (m ++ ' ' :: d1 :: d2 :: d3 :: d4 :: rest) = some (m, [d1, d2, d3, d4]) := by
  unfold monthYearHere
  rw [if_pos (List.isPrefixOf_iff_prefix.mpr (List.prefix_append m _)), List.drop_left]
  dsimp only
  have hd : (d1 :: d2 :: d3 :: d4 :: rest).dropWhile Char.isWhitespace =
      d1 :: d2 :: d3 :: d4 :: rest := by
    rw [List.dropWhile_cons, not_ws_of_digit h1]
    simp
  have ht : (' ' :: d1 :: d2 :: d3 :: d4 :: rest).takeWhile Char.isWhitespace = [' '] := by
    rw [List.takeWhile_cons]
    simp only [show (' ').isWhitespace = true from rfl, if_true]
    rw [List.takeWhile_cons, not_ws_of_digit h1]
    simp
  rw [List.dropWhile_cons]
  simp only [show (' ').isWhitespace = true from rfl, if_true]
  rw [hd, ht]
  simp [List.take, h1, h2, h3, h4]

theorem findSome?_first_hit {α β : Type} (f : α → Option β) (l : List α) (a : α) (b : β)
    (ha : a ∈ l) (hfa : f a = some b) (huniq : ∀ x ∈ l, f x = none ∨ x = a) :
    l.findSome? f = some b := by
  induction l with
  | nil => cases ha
  | cons x xs ih =>
    rcases huniq x (by simp) with hx | hx
    · have hxa : x ≠ a := fun hcontra => by rw [hcontra, hfa] at hx; cases hx
      have ha' : a ∈ xs := by
        rcases List.mem_cons.mp ha with h | h
        · exact absurd h.symm hxa
        · exact h
      rw [List.findSome?_cons, hx]
      exact ih ha' (fun y hy => huniq y (by simp [hy]))
    · subst hx
      rw [List.findSome?_cons, hfa]

theorem extractRM_month (m : String) (d1 d2 d3 d4 : Char)
    (h1 : d1.isDigit = true) (h2 : d2.isDigit = true)
    (h3 : d3.isDigit = true) (h4 : d4.isDigit = true) (rest : List Char)
    (hmem : m ∈ monthNames)
    (hother : ∀ x ∈ monthNames,
      monthYearHere x.data (m.data ++ ' ' :: d1 :: d2 :: d3 :: d4 :: rest) = none ∨ x = m)
    (hne : m.data ≠ []) :
    extractReportMonth ⟨m.data ++ ' ' :: d1 :: d2 :: d3 :: d4 :: rest⟩ =
      some (titleCaseStr ⟨m.data.take 3 ++ '-' :: d3 :: d4 :: []⟩) := by
  have htry : tryMonthYear (m.data ++ ' ' :: d1 :: d2 :: d3 :: d4 :: rest) =
      some (m.data, [d1, d2, d3, d4]) := by
    refine findSome?_first_hit _ monthNames m _ hmem
      (monthYearHere_self m.data d1 d2 d3 d4 h1 h2 h3 h4 rest) ?_
    intro x hx
    rcases hother x hx with h | h
    · exact Or.inl h
    · exact Or.inr h
  cases hdata : m.data with
  | nil => exact absurd hdata hne
  | cons c cs =>
    simp only [extractReportMonth]
    rw [hdata, List.cons_append] at htry
    show (searchMonthYear (c :: (cs ++ ' ' :: d1 :: d2 :: d3 :: d4 :: rest))).map _ = _
    simp only [searchMonthYear]
    rw [htry]
    rfl

set_option maxHeartbeats 1000000 in
theorem c9_period_label (m : String) (hm : m ∈ monthNames) (d1 d2 d3 d4 : Char)
    (h1 : d1.isDigit = true) (h2 : d2.isDigit = true)
    (h3 : d3.isDigit = true) (h4 : d4.isDigit = true) (rest : List Char) :
    extractReportMonth ⟨m.data ++ ' ' :: d1 :: d2 :: d3 :: d4 :: rest⟩ =
      some (titleCaseStr ⟨m.data.take 3 ++ '-' :: d3 :: d4 :: []⟩) := by
  simp only [monthNames, List.mem_cons, List.not_mem_nil, or_false] at hm
  rcases hm with rfl | rfl | rfl | rfl | rfl | rfl | rfl | rfl | rfl | rfl | rfl | rfl <;>
  · refine extractRM_month _ d1 d2 d3 d4 h1 h2 h3 h4 rest (by decide) ?_ (by decide)
    intro x hx
    simp only [monthNames, List.mem_cons, List.not_mem_nil, or_false] at hx
    rcases hx with rfl | rfl | rfl | rfl | rfl | rfl | rfl | rfl | rfl | rfl | rfl | rfl <;>
      first
        | (right ; rfl)
        | (left ; rfl)

theorem searchMonthYear_none (cs : List Char)
    (h : ∀ n, tryMonthYear (cs.drop n) = none) : searchMonthYear cs = none := by
  induction cs with
  | nil => rfl
  | cons c cs ih =>
    have h0 : tryMonthYear (c :: cs) = none := h 0
    simp only [searchMonthYear]
    rw [h0]
    exact ih (fun n => h (n + 1))

theorem trimStr_of_mfg_fragment {sp : List Char} {f : String} {l : List String}
    (hl : l = (splitChars (fun c => c == ';') sp).map (fun x => (⟨trimL x⟩ : String)))
    (hf : f ∈ l) : trimStr f = f := by
  subst hl
  obtain ⟨x, _, rfl⟩ := List.mem_map.mp hf
  show (⟨trimL (trimL x)⟩ : String) = ⟨trimL x⟩
  rw [trimL_idem]

/-- Counterexample to claim C9 as stated: the manufacturing extractor does
*not* drop empty fragments — the document span `A;;B` yields the fragment
list `["A", "", "B"]` with the empty fragment retained. -/
theorem c9_counterexample :
    (extractIndustryDataMfg "industries reporting growth: A;;B.").1 = ["A", "", "B"] ∧
    ("" : String) ∈ (extractIndustryDataMfg "industries reporting growth: A;;B.").1 := by
  refine ⟨by decide, by decide⟩

/-- Claim C9 (amended): the period label comes from the first occurrence
of an English month name followed (after whitespace) by a 4-digit year and
is emitted as the title-cased 3-letter month, hyphen, last two year
digits; if the pattern matches at no position, the result is none.  The
captured spans are split into fragments that are each trimmed; the
*service* variant drops empty fragments (after also stripping `"and "`
tokens), while the *manufacturing* variant retains them. -/
theorem c9_extractor_amended (m : String) (hm : m ∈ monthNames) (d1 d2 d3 d4 : Char)
    (h1 : d1.isDigit = true) (h2 : d2.isDigit = true)
    (h3 : d3.isDigit = true) (h4 : d4.isDigit = true) (rest : List Char)
    (text doc : String) (hnone : ∀ n, tryMonthYear (doc.data.drop n) = none) :
    extractReportMonth ⟨m.data ++ ' ' :: d1 :: d2 :: d3 :: d4 :: rest⟩ =
      some (titleCaseStr ⟨m.data.take 3 ++ '-' :: d3 :: d4 :: []⟩) ∧
    extractReportMonth doc = none ∧
    (∀ f ∈ (extractIndustryDataMfg text).1, trimStr f = f) ∧
    (∀ f ∈ (extractIndustryDataMfg text).2, trimStr f = f) ∧
    (∀ f ∈ (extractIndustryDataSvc text).1, f ≠ "") ∧
    (∀ f ∈ (extractIndustryDataSvc text).2, f ≠ "") := by
  refine ⟨c9_period_label m hm d1 d2 d3 d4 h1 h2 h3 h4 rest, ?_, ?_, ?_, ?_, ?_⟩
  · show (searchMonthYear doc.data).map _ = none
    rw [searchMonthYear_none doc.data hnone]
    rfl
  · intro f hf
    simp only [extractIndustryDataMfg] at hf
    rcases hcap : searchCapture ["industries reporting growth".data]
        ["industries reporting contraction".data] (collapseWs text).data with _ | span
    · rw [hcap] at hf
      cases hf
    · rw [hcap] at hf
      exact trimStr_of_mfg_fragment rfl hf
  · intro f hf
    simp only [extractIndustryDataMfg] at hf
    rcases hcap : searchCapture ["industries reporting contraction".data] []
        (collapseWs text).data with _ | span
    · rw [hcap] at hf
      cases hf
    · rw [hcap] at hf
      exact trimStr_of_mfg_fragment rfl hf
  · intro f hf
    simp only [extractIndustryDataSvc] at hf
    rw [List.mem_filter] at hf
    have := hf.2
    simpa using this
  · intro f hf
    simp only [extractIndustryDataSvc] at hf
    rw [List.mem_filter] at hf
    have := hf.2
    simpa using this

/-- Witness for the amended C9: a concrete document text around
"March 2025" produces the period label "Mar-25", and a text with no
month-year occurrence produces none. -/
theorem c9_extractor_amended_witness :
    extractReportMonth "March 2025 Manufacturing PMI report" = some "Mar-25" ∧
    extractReportMonth "no period here" = none := by
  have h := c9_extractor_amended "March" (by decide) '2' '0' '2' '5'
    (by decide) (by decide) (by decide) (by decide) " Manufacturing PMI report".data
    "industries reporting growth: A; B." "no period here"
    (by
      intro n
      rcases Nat.lt_or_ge n 14 with hn | hn
      · interval_cases n <;> rfl
      · have : ("no period here" : String).data.drop n = [] := by
          apply List.drop_eq_nil_of_le
          simpa using hn
        rw [this]
        rfl)
  exact ⟨h.1, h.2.1⟩

/-! ## Claim C5 : merge invariants -/

theorem month_pair_headers_ne (m : String) :
    ((m ++ " Status" : String) == (m ++ " Rank" : String)) = false ∧
    ((m ++ " Rank" : String) == (m ++ " Status" : String)) = false := by
  constructor <;>
  · rw [beq_eq_false_iff_ne]
    intro h
    have := congrArg String.data h
    simp only [String.data_append] at this
    have := List.append_cancel_left this
    simp at this

/-- Claim C5: a merge (i) never decreases the row count, (ii)/(iii)
leaves exactly one column with the target month's Rank header and one
with its Status header (an existing same-label pair is dropped and the
pair rebuilt, never duplicated), (iv) preserves the column count of every
other header, and (v) keeps every other column's values on the
pre-existing rows unchanged (the merged column extends them only with the
padding cells of newly appended rows). -/
theorem c5_merge_invariants (L : Ledger) (m : String) (growth contraction : List String) :
    L.names.length ≤ (updateMfg L m growth contraction).names.length ∧
    (updateMfg L m growth contraction).cols.countP (fun pc => pc.1 == m ++ " Rank") = 1 ∧
    (updateMfg L m growth contraction).cols.countP (fun pc => pc.1 == m ++ " Status") = 1 ∧
    (∀ h : String, h ≠ m ++ " Rank" → h ≠ m ++ " Status" →
      (updateMfg L m growth contraction).cols.countP (fun pc => pc.1 == h) =
        L.cols.countP (fun pc => pc.1 == h)) ∧
    (∀ hd vs, (hd, vs) ∈ L.cols → hd ≠ m ++ " Rank" → hd ≠ m ++ " Status" →
      ∃ vs', (hd, vs') ∈ (updateMfg L m growth contraction).cols ∧
        vs'.take vs.length = vs) := by
  have hkept : ∀ (hh : String), ∀ pc ∈ ((L.cols.map
      (fun pc => (pc.1, pc.2 ++ (newIndustries L growth contraction).map (fun _ => "")))).filter
        (fun pc => !(pc.1 == m ++ " Rank" || pc.1 == m ++ " Status"))),
      (hh = m ++ " Rank" ∨ hh = m ++ " Status") → (pc.1 == hh) = false := by
    intro hh pc hpc hcase
    have hq := (List.mem_filter.mp hpc).2
    simp only [Bool.not_eq_true', Bool.or_eq_false_iff] at hq
    rw [beq_eq_false_iff_ne]
    intro hcontra
    rcases hcase with hcase | hcase
    · rw [hcase] at hcontra
      exact absurd hcontra (by simpa [beq_eq_false_iff_ne] using hq.1)
    · rw [hcase] at hcontra
      exact absurd hcontra (by simpa [beq_eq_false_iff_ne] using hq.2)
  refine ⟨?_, ?_, ?_, ?_, ?_⟩
  · show L.names.length ≤ (L.names ++ newIndustries L growth contraction).length
    simp
  · show List.countP _ (_ ++ [(m ++ " Rank", _), (m ++ " Status", _)]) = 1
    rw [List.countP_append]
    have h0 : List.countP (fun pc => pc.1 == m ++ " Rank") ((L.cols.map
        (fun pc => (pc.1, pc.2 ++ (newIndustries L growth contraction).map (fun _ => "")))).filter
          (fun pc => !(pc.1 == m ++ " Rank" || pc.1 == m ++ " Status"))) = 0 := by
      rw [List.countP_eq_zero]
      intro pc hpc
      simp [hkept (m ++ " Rank") pc hpc (Or.inl rfl)]
    rw [h0]
    simp [List.countP_cons, (month_pair_headers_ne m).1]
  · show List.countP _ (_ ++ [(m ++ " Rank", _), (m ++ " Status", _)]) = 1
    rw [List.countP_append]
    have h0 : List.countP (fun pc => pc.1 == m ++ " Status") ((L.cols.map
        (fun pc => (pc.1, pc.2 ++ (newIndustries L growth contraction).map (fun _ => "")))).filter
          (fun pc => !(pc.1 == m ++ " Rank" || pc.1 == m ++ " Status"))) = 0 := by
      rw [List.countP_eq_zero]
      intro pc hpc
      simp [hkept (m ++ " Status") pc hpc (Or.inr rfl)]
    rw [h0]
    simp [List.countP_cons, (month_pair_headers_ne m).2]
  · intro hh hR hS
    show List.countP _ (_ ++ [(m ++ " Rank", _), (m ++ " Status", _)]) = _
    rw [List.countP_append]
    have hpair : List.countP (fun pc => pc.1 == hh)
        [((m ++ " Rank" : String), (L.names ++ newIndustries L growth contraction).map
            (fun ind => (mfgAssign growth contraction ind).1)),
         ((m ++ " Status" : String), (L.names ++ newIndustries L growth contraction).map
            (fun ind => (mfgAssign growth contraction ind).2))] = 0 := by
      rw [List.countP_eq_zero]
      intro pc hpc
      rcases List.mem_cons.mp hpc with rfl | hpc
      · simp [beq_eq_false_iff_ne, Ne.symm hR]
      · rcases List.mem_cons.mp hpc with rfl | hpc
        · simp [beq_eq_false_iff_ne, Ne.symm hS]
        · cases hpc
    rw [hpair, Nat.add_zero, List.countP_filter, List.countP_map]
    refine List.countP_congr ?_
    intro pc _
    show ((pc.1 == hh && !(pc.1 == m ++ " Rank" || pc.1 == m ++ " Status")) = true) ↔
      ((pc.1 == hh) = true)
    by_cases hc : pc.1 = hh
    · subst hc
      simp [hR, hS]
    · simp [hc]
  · intro hd vs hmem hR hS
    refine ⟨vs ++ (newIndustries L growth contraction).map (fun _ => ""), ?_, List.take_left _ _⟩
    exact mem_cols_updateMfg hmem hR hS

/-- Witness for C5 at a concrete ledger carrying a Jan-25 pair, merged
for Feb-25 with one new category. -/
theorem c5_merge_invariants_witness :
    (updateMfg ⟨["A"], [("Jan-25 Rank", ["1 ↑"]), ("Jan-25 Status", ["Growth"])]⟩
        "Feb-25" ["Zed"] []).cols.countP (fun pc => pc.1 == "Jan-25 Rank") =
      ([(("Jan-25 Rank" : String), (["1 ↑"] : List String)),
        ("Jan-25 Status", ["Growth"])]).countP (fun pc => pc.1 == "Jan-25 Rank") ∧
    (updateMfg ⟨["A"], [("Jan-25 Rank", ["1 ↑"]), ("Jan-25 Status", ["Growth"])]⟩
        "Feb-25" ["Zed"] []).cols.countP (fun pc => pc.1 == "Feb-25" ++ " Rank") = 1 ∧
    ∃ vs', ("Jan-25 Rank", vs') ∈
        (updateMfg ⟨["A"], [("Jan-25 Rank", ["1 ↑"]), ("Jan-25 Status", ["Growth"])]⟩
          "Feb-25" ["Zed"] []).cols ∧ vs'.take 1 = ["1 ↑"] := by
  have h := c5_merge_invariants
    ⟨["A"], [("Jan-25 Rank", ["1 ↑"]), ("Jan-25 Status", ["Growth"])]⟩ "Feb-25" ["Zed"] []
  refine ⟨h.2.2.2.1 "Jan-25 Rank" (by decide) (by decide), h.2.1, ?_⟩
  have := h.2.2.2.2 "Jan-25 Rank" ["1 ↑"] (by decide) (by decide) (by decide)
  simpa using this

/-! ## Claim C3 : service grouped-and-reversed policy -/

theorem find?_isNone_of_not_mem_keys {acc : List (String × Nat)} {m : String}
    (h : m ∉ acc.map Prod.fst) : (acc.find? (fun p => p.1 == m)).isNone = true := by
  rw [Option.isNone_iff_eq_none, List.find?_eq_none]
  intro p hp
  simp only [Bool.not_eq_true, beq_eq_false_iff_ne]
  intro hc
  exact h (List.mem_map.mpr ⟨p, hp, hc⟩)

theorem find?_isNone_false_of_mem_keys {acc : List (String × Nat)} {m : String}
    (h : m ∈ acc.map Prod.fst) : (acc.find? (fun p => p.1 == m)).isNone = false := by
  obtain ⟨p, hp, hpk⟩ := List.mem_map.mp h
  have hsome : (acc.find? (fun p => p.1 == m)).isSome = true := by
    rw [List.find?_isSome]
    refine ⟨p, hp, ?_⟩
    simp [hpk]
  rcases hf : acc.find? (fun p => p.1 == m) with _ | v
  · rw [hf] at hsome
    cases hsome
  · rw [hf]
    rfl

theorem dedupF_congr (s₁ s₂ : List String) (l : List (String × Nat))
    (h : ∀ k, k ∈ s₁ ↔ k ∈ s₂) : dedupF s₁ l = dedupF s₂ l := by
  induction l generalizing s₁ s₂ with
  | nil => rfl
  | cons p ps ih =>
    by_cases hp : p.1 ∈ s₁
    · rw [dedupF, if_pos hp, dedupF, if_pos ((h p.1).mp hp)]
      exact ih s₁ s₂ h
    · rw [dedupF, if_neg hp, dedupF, if_neg (fun hc => hp ((h p.1).mpr hc))]
      rw [ih (p.1 :: s₁) (p.1 :: s₂) (by intro k; simp [h k])]

theorem buildPositions_eq (rows : List String) (lst : List String) :
    ∀ (i : Nat) (acc : List (String × Nat)),
    buildPositions rows i lst acc = acc ++ dedupF (acc.map Prod.fst) (resolvedList rows i lst) := by
  induction lst with
  | nil =>
    intro i acc
    simp [buildPositions, resolvedList, dedupF]
  | cons x xs ih =>
    intro i acc
    cases hm : matchIndustryName x rows with
    | none =>
      simp only [buildPositions, resolvedList, hm]
      exact ih (i + 1) acc
    | some m =>
      by_cases hme : m = ""
      · subst hme
        simp only [buildPositions, resolvedList, hm]
        rw [if_neg (by simp), if_pos (by rfl)]
        exact ih (i + 1) acc
      · have hbeq : (m == "") = false := by
          rw [beq_eq_false_iff_ne]
          exact hme
        by_cases hseen : m ∈ acc.map Prod.fst
        · simp only [buildPositions, resolvedList, hm]
          rw [if_neg (by simp [hbeq, find?_isNone_false_of_mem_keys hseen]),
            if_neg (by simp [hbeq])]
          rw [dedupF, if_pos hseen]
          exact ih (i + 1) acc
        · simp only [buildPositions, resolvedList, hm]
          rw [if_pos (by simp [hbeq, find?_isNone_of_not_mem_keys hseen]),
            if_neg (by simp [hbeq])]
          rw [dedupF, if_neg hseen]
          rw [ih (i + 1) (acc ++ [(m, i)])]
          rw [List.append_assoc]
          congr 1
          show (m, i) :: _ = _
          congr 1
          refine dedupF_congr _ _ _ ?_
          intro k
          simp [or_comm]

theorem resolvedList_snd_ge (rows : List String) (lst : List String) :
    ∀ (i : Nat) (p : String × Nat), p ∈ resolvedList rows i lst → i ≤ p.2 := by
  induction lst with
  | nil =>
    intro i p hp
    simp [resolvedList] at hp
  | cons x xs ih =>
    intro i p hp
    cases hm : matchIndustryName x rows with
    | none =>
      simp only [resolvedList, hm] at hp
      exact Nat.le_of_succ_le (ih (i + 1) p hp)
    | some m =>
      simp only [resolvedList, hm] at hp
      by_cases hme : (m == "") = true
      · rw [if_pos hme] at hp
        exact Nat.le_of_succ_le (ih (i + 1) p hp)
      · rw [if_neg hme] at hp
        rcases List.mem_cons.mp hp with rfl | hp
        · exact Nat.le_refl i
        · exact Nat.le_of_succ_le (ih (i + 1) p hp)

theorem resolvedList_pairwise (rows : List String) (lst : List String) :
    ∀ (i : Nat), (resolvedList rows i lst).Pairwise (fun a b => a.2 < b.2) := by
  induction lst with
  | nil =>
    intro i
    simp [resolvedList]
  | cons x xs ih =>
    intro i
    cases hm : matchIndustryName x rows with
    | none =>
      simp only [resolvedList, hm]
      exact ih (i + 1)
    | some m =>
      simp only [resolvedList, hm]
      by_cases hme : (m == "") = true
      · rw [if_pos hme]
        exact ih (i + 1)
      · rw [if_neg hme]
        refine List.Pairwise.cons ?_ (ih (i + 1))
        intro b hb
        exact Nat.lt_of_succ_le (resolvedList_snd_ge rows xs (i + 1) b hb)

theorem dedupF_sublist (seen : List String) (l : List (String × Nat)) :
    (dedupF seen l).Sublist l := by
  induction l generalizing seen with
  | nil => exact List.Sublist.refl []
  | cons p ps ih =>
    rw [dedupF]
    by_cases hp : p.1 ∈ seen
    · rw [if_pos hp]
      exact List.Sublist.cons p (ih seen)
    · rw [if_neg hp]
      exact List.Sublist.cons₂ p (ih (p.1 :: seen))

theorem sortBySnd_sorted_id (l : List (String × Nat))
    (h : l.Pairwise (fun a b => a.2 ≤ b.2)) : sortBySnd l = l := by
  induction l with
  | nil => rfl
  | cons x xs ih =>
    rw [sortBySnd, ih (List.Pairwise.of_cons h)]
    cases xs with
    | nil => rfl
    | cons y ys =>
      rw [insertBySnd, if_pos (List.rel_of_pairwise_cons h (by simp))]

theorem lookupR_rankAux (t : Nat) (ind : String) (l : List (String × Nat)) :
    ∀ (k : Nat), lookupR (rankAux t k l) ind =
      (l.findIdx? (fun p => p.1 == ind) k).map (fun j => t - j) := by
  induction l with
  | nil =>
    intro k
    rfl
  | cons p ps ih =>
    intro k
    by_cases hp : (p.1 == ind) = true
    · rw [rankAux, lookupR, List.find?_cons]
      simp only [hp]
      rw [List.findIdx?_cons, if_pos hp]
      rfl
    · rw [rankAux, lookupR, List.find?_cons]
      simp only [hp]
      rw [List.findIdx?_cons, if_neg (by simp [hp])]
      exact ih (k + 1)

theorem dedupF_key_not_in_seen (seen : List String) (l : List (String × Nat)) :
    ∀ p ∈ dedupF seen l, p.1 ∉ seen := by
  induction l generalizing seen with
  | nil =>
    intro p hp
    simp [dedupF] at hp
  | cons q qs ih =>
    intro p hp
    rw [dedupF] at hp
    by_cases hq : q.1 ∈ seen
    · rw [if_pos hq] at hp
      exact ih seen p hp
    · rw [if_neg hq] at hp
      rcases List.mem_cons.mp hp with rfl | hp
      · exact hq
      · intro hc
        exact ih (q.1 :: seen) p hp (by simp [hc])

theorem dedupF_keys_nodup (seen : List String) (l : List (String × Nat)) :
    ((dedupF seen l).map Prod.fst).Nodup := by
  induction l generalizing seen with
  | nil => simp [dedupF]
  | cons q qs ih =>
    rw [dedupF]
    by_cases hq : q.1 ∈ seen
    · rw [if_pos hq]
      exact ih seen
    · rw [if_neg hq]
      rw [List.map_cons, List.nodup_cons]
      refine ⟨?_, ih (q.1 :: seen)⟩
      intro hc
      obtain ⟨p, hp, hpk⟩ := List.mem_map.mp hc
      exact dedupF_key_not_in_seen (q.1 :: seen) qs p hp (by simp [hpk])

theorem findIdx?_key_at (l : List (String × Nat)) (hnd : (l.map Prod.fst).Nodup)
    (k : Nat) (hk : k < l.length) :
    l.findIdx? (fun p => p.1 == (l.get ⟨k, hk⟩).1) = some k := by
  induction l generalizing k with
  | nil => cases hk
  | cons p ps ih =>
    cases k with
    | zero =>
      rw [List.findIdx?_cons, if_pos (by simp)]
    | succ j =>
      have hj : j < ps.length := Nat.lt_of_succ_lt_succ hk
      have hkey : ((ps.get ⟨j, hj⟩).1 ∈ ps.map Prod.fst) :=
        List.mem_map.mpr ⟨ps.get ⟨j, hj⟩, List.get_mem ps j hj, rfl⟩
      have hne : (p.1 == (ps.get ⟨j, hj⟩).1) = false := by
        rw [beq_eq_false_iff_ne]
        intro hc
        exact (List.nodup_cons.mp hnd).1 (hc ▸ hkey)
      show (p :: ps).findIdx? (fun q => q.1 == (ps.get ⟨j, hj⟩).1) = some (j + 1)
      rw [List.findIdx?_cons, if_neg (by simpa using hne), List.findIdx?_succ,
        ih (List.nodup_cons.mp hnd).2 j hj]
      rfl

theorem lookupR_rankMap (l : List (String × Nat)) (ind : String) :
    lookupR (rankMap l) ind = (idxOfKey l ind).map (fun j => l.length - j) :=
  lookupR_rankAux l.length ind l 0

theorem svcRanks_eq_spec (lst rows : List String) :
    svcRanks lst rows = rankMap (mentionPositions rows lst) := by
  unfold svcRanks mentionPositions
  rw [buildPositions_eq rows lst 1 []]
  rw [List.nil_append]
  congr 1
  refine sortBySnd_sorted_id _ ?_
  refine List.Pairwise.imp Nat.le_of_lt ?_
  exact List.Pairwise.sublist (dedupF_sublist [] (resolvedList rows 1 lst))
    (resolvedList_pairwise rows lst 1)

theorem mention_rank_inversion (rows lst : List String) (k : Nat)
    (hk : k < (mentionPositions rows lst).length) :
    lookupR (rankMap (mentionPositions rows lst))
        ((mentionPositions rows lst).get ⟨k, hk⟩).1 =
      some ((mentionPositions rows lst).length - k) := by
  rw [lookupR_rankMap]
  unfold idxOfKey
  rw [findIdx?_key_at (mentionPositions rows lst)
    (dedupF_keys_nodup [] (resolvedList rows 1 lst)) k hk]
  rfl

/-- Claim C3: the service-variant assignment equals the specification's
grouped-and-reversed reading: raw names are resolved in mention order with
the first raw mention winning on duplicates (`mentionPositions`), growth
is consulted before contraction, unmatched rows are Neutral; and in each
rank dict the `k`-th mentioned row (0-based) of `G` matched rows carries
magnitude `G - k`, so the first-mentioned row receives `G` and the
last-mentioned receives `1`. -/
theorem c3_grouped_reversed (growth contraction rows : List String) (industry : String) :
    svcAssign growth contraction rows industry =
      specSvcAssign growth contraction rows industry ∧
    (∀ (lst : List String) (k : Nat) (hk : k < (mentionPositions rows lst).length),
      lookupR (rankMap (mentionPositions rows lst))
          ((mentionPositions rows lst).get ⟨k, hk⟩).1 =
        some ((mentionPositions rows lst).length - k)) := by
  refine ⟨?_, fun lst k hk => mention_rank_inversion rows lst k hk⟩
  unfold svcAssign specSvcAssign
  rw [svcRanks_eq_spec growth rows, svcRanks_eq_spec contraction rows,
    lookupR_rankMap, lookupR_rankMap]
  dsimp only
  rcases hg : idxOfKey (mentionPositions rows growth) industry with _ | j <;>
    rcases hcc : idxOfKey (mentionPositions rows contraction) industry with _ | j2 <;>
      simp [hg, hcc]

/-- Witness for C3 at rows `["A","B","C"]`, growth `["A","B"]`,
contraction `["C"]`: the first-mentioned growth row "A" gets rank 2. -/
theorem c3_grouped_reversed_witness :
    svcAssign ["A", "B"] ["C"] ["A", "B", "C"] "A" = ("2 ↑", "Growth") ∧
    lookupR (rankMap (mentionPositions ["A", "B", "C"] ["A", "B"]))
        ((mentionPositions ["A", "B", "C"] ["A", "B"]).get ⟨0, by decide⟩).1 = some 2 := by
  have h := c3_grouped_reversed ["A", "B"] ["C"] ["A", "B", "C"] "A"
  constructor
  · rw [h.1]
    decide
  · exact h.2 ["A", "B"] 0 (by decide)

/-! ## Claim C1 : idempotence of the update pipeline -/

theorem matchTruthy_eq (cand : String) (pool : List String) :
    matchTruthy cand pool =
      (match matchIndustryName cand pool with
       | none => false
       | some s => !(s == "")) := rfl

theorem matchTruthy_mono {x : String} {P : List String} (Q : List String)
    (hP : matchTruthy x P = true) (hQ : ∀ q ∈ Q, q ≠ "") :
    matchTruthy x (P ++ Q) = true := by
  have hQbeq : ∀ q ∈ Q, (!(q == "")) = true := by
    intro q hq
    simp [hQ q hq]
  rw [matchTruthy_eq] at hP ⊢
  rw [matchIndustryName_eq] at hP ⊢
  rw [List.find?_append, List.find?_append, List.find?_append]
  rcases h1 : P.find? (fun s => tier1Hit (lowerL (trimL x.data)) s) with _ | e
  · rw [h1] at hP
    dsimp only at hP
    rcases hq1 : Q.find? (fun s => tier1Hit (lowerL (trimL x.data)) s) with _ | q
    · dsimp only [Option.or]
      rcases h2 : P.find? (fun s => tier2Hit (lowerL (trimL x.data)) s) with _ | e
      · rw [h2] at hP
        dsimp only at hP
        rcases hq2 : Q.find? (fun s => tier2Hit (lowerL (trimL x.data)) s) with _ | q
        · dsimp only [Option.or]
          rcases h3 : P.find? (fun s => tier3Hit (lowerL (trimL x.data)) s) with _ | e
          · rw [h3] at hP
            cases hP
          · rw [h3] at hP
            dsimp only at hP
            dsimp only [Option.or]
            exact hP
        · dsimp only [Option.or]
          exact hQbeq q (List.mem_of_find?_eq_some hq2)
      · rw [h2] at hP
        dsimp only at hP
        dsimp only [Option.or]
        exact hP
    · dsimp only [Option.or]
      exact hQbeq q (List.mem_of_find?_eq_some hq1)
  · rw [h1] at hP
    dsimp only at hP
    dsimp only [Option.or]
    exact hP

theorem match_empty_trimmed (cand p : String) (ps : List String)
    (hne : ∀ s ∈ p :: ps, s ≠ "") (hc : trimL cand.data = []) :
    matchIndustryName cand (p :: ps) = some p := by
  have hr : lowerL (trimL cand.data) = [] := by
    rw [hc]
    rfl
  rw [matchIndustryName_eq, hr]
  have hfind1 : (p :: ps).find? (fun s => tier1Hit [] s) = none := by
    rw [List.find?_eq_none]
    intro s hs
    simp only [tier1Hit, Bool.not_eq_true, beq_eq_false_iff_ne, ne_eq]
    intro hcontra
    have hd : s.data = [] := lowerL_eq_nil.mp hcontra.symm
    refine hne s hs ?_
    cases s with
    | mk d =>
      simp only [String.data] at hd
      rw [hd]
  rw [hfind1]
  have hfind2 : tier2Hit [] p = true := by
    simp [tier2Hit, containsSub_nil_left]
  rw [List.find?_cons, hfind2]

theorem updateMfg_names (L : Ledger) (m : String) (g c : List String) :
    (updateMfg L m g c).names = L.names ++ newIndustries L g c := rfl

theorem updateMfg_cols (L : Ledger) (m : String) (g c : List String) :
    (updateMfg L m g c).cols =
      ((L.cols.map (fun pc => (pc.1, pc.2 ++ (newIndustries L g c).map (fun _ => "")))).filter
          (fun pc => !(pc.1 == m ++ " Rank" || pc.1 == m ++ " Status")))
        ++ [(m ++ " Rank", (L.names ++ newIndustries L g c).map
              (fun ind => (mfgAssign g c ind).1)),
            (m ++ " Status", (L.names ++ newIndustries L g c).map
              (fun ind => (mfgAssign g c ind).2))] := rfl

theorem newIndustries_trim_ne_empty (L : Ledger) (g c : List String)
    (h1 : L.names ≠ []) (h2 : ∀ n ∈ L.names, trimStr n ≠ "") :
    ∀ y ∈ newIndustries L g c, trimStr y ≠ "" := by
  intro y hy hcontra
  have hfalse : matchTruthy y (L.names.map trimStr) = false := by
    have := (List.mem_filter.mp hy).2
    simpa using this
  cases hnames : L.names with
  | nil => exact h1 hnames
  | cons n ns =>
    have hmatch : matchIndustryName y (trimStr n :: ns.map trimStr) = some (trimStr n) := by
      refine match_empty_trimmed y (trimStr n) (ns.map trimStr) ?_ (trimStr_eq_empty hcontra)
      intro s hs
      rcases List.mem_cons.mp hs with rfl | hs
      · exact h2 n (by rw [hnames]; simp)
      · obtain ⟨n', hn', rfl⟩ := List.mem_map.mp hs
        exact h2 n' (by rw [hnames]; simp [hn'])
    rw [hnames] at hfalse
    rw [matchTruthy_eq] at hfalse
    simp only [List.map_cons] at hfalse
    rw [hmatch] at hfalse
    have hn0 : trimStr n ≠ "" := h2 n (by rw [hnames]; simp)
    simp [hn0] at hfalse

theorem newIndustries_rematch (L : Ledger) (g c : List String)
    (h1 : L.names ≠ []) (h2 : ∀ n ∈ L.names, trimStr n ≠ "") :
    ∀ x ∈ newIndustries L g c,
      matchTruthy x ((L.names ++ newIndustries L g c).map trimStr) = true := by
  intro x hx
  have hxne : trimStr x ≠ "" := newIndustries_trim_ne_empty L g c h1 h2 x hx
  have hxr : lowerL (trimL x.data) ≠ [] := by
    intro hcontra
    apply hxne
    have : trimL x.data = [] := lowerL_eq_nil.mp hcontra
    rw [trimStr, this]
  have hmem : trimStr x ∈ (L.names ++ newIndustries L g c).map trimStr :=
    List.mem_map.mpr ⟨x, List.mem_append_right _ hx, rfl⟩
  have hsome : (((L.names ++ newIndustries L g c).map trimStr).find?
      (fun s => tier1Hit (lowerL (trimL x.data)) s)).isSome = true := by
    rw [List.find?_isSome]
    refine ⟨trimStr x, hmem, ?_⟩
    simp [tier1Hit, trimStr]
  rcases hfe : ((L.names ++ newIndustries L g c).map trimStr).find?
      (fun s => tier1Hit (lowerL (trimL x.data)) s) with _ | e
  · rw [hfe] at hsome
    cases hsome
  · have hpred := List.find?_some hfe
    have hene : e ≠ "" := by
      simp only [tier1Hit, beq_iff_eq] at hpred
      intro hcontra
      rw [hcontra] at hpred
      exact hxr hpred
    rw [matchTruthy_eq, matchIndustryName_eq, hfe]
    dsimp only
    simp [hene]

theorem newIndustries_second_run (L : Ledger) (m : String) (g c : List String)
    (h1 : L.names ≠ []) (h2 : ∀ n ∈ L.names, trimStr n ≠ "") :
    newIndustries (updateMfg L m g c) g c = [] := by
  rw [newIndustries]
  rw [List.filter_eq_nil_iff]
  intro x hx
  simp only [Bool.not_eq_true', Bool.not_eq_false]
  rw [updateMfg_names, List.map_append]
  by_cases hmatched : matchTruthy x (L.names.map trimStr) = true
  · refine matchTruthy_mono _ hmatched ?_
    intro q hq
    obtain ⟨y, hy, rfl⟩ := List.mem_map.mp hq
    exact newIndustries_trim_ne_empty L g c h1 h2 y hy
  · have hxni : x ∈ newIndustries L g c := by
      rw [newIndustries, List.mem_filter]
      exact ⟨hx, by simp [hmatched]⟩
    have := newIndustries_rematch L g c h1 h2 x hxni
    rwa [List.map_append] at this

theorem updateMfg_idem (L : Ledger) (m : String) (g c : List String)
    (h1 : L.names ≠ []) (h2 : ∀ n ∈ L.names, trimStr n ≠ "") :
    updateMfg (updateMfg L m g c) m g c = updateMfg L m g c := by
  have hni2 := newIndustries_second_run L m g c h1 h2
  have hnames : (updateMfg (updateMfg L m g c) m g c).names = (updateMfg L m g c).names := by
    rw [updateMfg_names (updateMfg L m g c) m g c, hni2, List.append_nil]
  have hcols : (updateMfg (updateMfg L m g c) m g c).cols = (updateMfg L m g c).cols := by
    rw [updateMfg_cols (updateMfg L m g c) m g c, hni2]
    simp only [List.map_nil, List.append_nil, Prod.mk.eta, List.map_id']
    rw [updateMfg_cols L m g c, updateMfg_names L m g c]
    rw [List.filter_append, List.filter_filter]
    simp only [Bool.and_self]
    have hpair : ([(m ++ " Rank", (L.names ++ newIndustries L g c).map
            (fun ind => (mfgAssign g c ind).1)),
          (m ++ " Status", (L.names ++ newIndustries L g c).map
            (fun ind => (mfgAssign g c ind).2))]).filter
        (fun pc => !(pc.1 == m ++ " Rank" || pc.1 == m ++ " Status")) = [] := by
      rw [List.filter_cons, List.filter_cons]
      simp [(month_pair_headers_ne m).1]
    rw [hpair, List.append_nil]
  calc updateMfg (updateMfg L m g c) m g c
      = ⟨(updateMfg (updateMfg L m g c) m g c).names,
         (updateMfg (updateMfg L m g c) m g c).cols⟩ := rfl
    _ = ⟨(updateMfg L m g c).names, (updateMfg L m g c).cols⟩ := by rw [hnames, hcols]
    _ = updateMfg L m g c := rfl

/-- Claim C1: running the update twice against the same document (same
month label, same growth/contraction lists) yields a ledger identical to
running it once — also through the abort wrapper — provided the ledger is
well-formed: non-empty (the seed vocabulary guarantees this) with no
whitespace-only row names (never produced by the pipeline).  No rows or
column pairs are duplicated and the rebuilt month pair is byte-identical. -/
theorem c1_pipeline_idempotent (L : Ledger) (m : String) (growth contraction : List String)
    (h1 : L.names ≠ []) (h2 : ∀ n ∈ L.names, trimStr n ≠ "") :
    updateMfg (updateMfg L m growth contraction) m growth contraction =
      updateMfg L m growth contraction ∧
    (∀ om : Option String,
      runUpdateMfg (runUpdateMfg L om growth contraction) om growth contraction =
        runUpdateMfg L om growth contraction) := by
  refine ⟨updateMfg_idem L m growth contraction h1 h2, ?_⟩
  intro om
  cases om with
  | none => rfl
  | some m2 =>
    by_cases habort : growth = [] ∧ contraction = []
    · simp [runUpdateMfg, habort]
    · show runUpdateMfg (if growth = [] ∧ contraction = [] then L
        else updateMfg L m2 growth contraction) (some m2) growth contraction = _
      rw [if_neg habort]
      show (if growth = [] ∧ contraction = [] then updateMfg L m2 growth contraction
        else updateMfg (updateMfg L m2 growth contraction) m2 growth contraction) =
        (if growth = [] ∧ contraction = [] then L else updateMfg L m2 growth contraction)
      rw [if_neg habort, if_neg habort]
      exact updateMfg_idem L m2 growth contraction h1 h2

/-- Witness for C1 at a concrete ledger and extraction, with a new
category appended on the first run. -/
theorem c1_pipeline_idempotent_witness :
    updateMfg (updateMfg ⟨["Machinery"], []⟩ "Mar-25" ["Machinery", "Zed"] ["Qux"])
        "Mar-25" ["Machinery", "Zed"] ["Qux"] =
      updateMfg ⟨["Machinery"], []⟩ "Mar-25" ["Machinery", "Zed"] ["Qux"] :=
  (c1_pipeline_idempotent ⟨["Machinery"], []⟩ "Mar-25" ["Machinery", "Zed"] ["Qux"]
    (by decide) (by decide)).1
